import Mathlib

/-!
# Verification of the mqtt2irc bridge against its specification

A shallow embedding of the pure core of the `mqtt2irc` repository:

* the MQTT topic matcher (`matchTopic` / `matchParts` / `IsValidPattern`
  from the bridge's mapper),
* the IRC formatter's `sanitize` / `truncate` / `SanitizeAndTruncate`,
* the per-route dispatch logic of `Bridge.handleMessage`,
* the MQTT client's `messageHandler` enqueue step,
* the Meshtastic processor's node registry (`smartFrom`, `update`) and
  dedup cache (`seen`).

Go strings are modelled at the rune level as `List Char` where character
counting matters (the formatter and the matcher); identifiers that are only
compared for equality (node ids, channel names) stay `String`.  Go maps are
modelled as association lists with unique keys; `time.Time` is a `Nat`
instant and `time.Duration` a `Nat`.
-/

set_option autoImplicit false

namespace Mqtt2Irc

/-! ## Topic matcher (internal/bridge/mapper.go) -/

/-- `strings.Split(s, "/")` at the rune level.  Always returns at least one
segment; `splitSlash [] = [[]]` just as `strings.Split("", "/") = [""]`. -/
def splitSlash : List Char → List (List Char)
  | [] => [[]]
  | c :: rest =>
    match splitSlash rest with
    | [] => [[]]
    | seg :: segs => if c = '/' then [] :: seg :: segs else (c :: seg) :: segs

/-- `Mapper.matchParts`: recursive segment-by-segment match of topic parts
against pattern parts, with MQTT wildcards `#` (multi level, must be last)
and `+` (exactly one level). -/
def matchParts : List (List Char) → List (List Char) → Bool
  | topicParts, [] => topicParts.isEmpty
  | topicParts, p :: ps =>
    if p = ['#'] then ps.isEmpty
    else
      match topicParts with
      | [] => false
      | t :: ts =>
        if p = ['+'] then matchParts ts ps
        else if t = p then matchParts ts ps
        else false

/-- `Mapper.matchTopic`: exact match first, then a wildcard-free pattern never
matches a different topic, otherwise split both on `/` and recurse. -/
def matchTopic (topic pattern : List Char) : Bool :=
  if topic = pattern then true
  else if !(pattern.contains '+') && !(pattern.contains '#') then false
  else matchParts (splitSlash topic) (splitSlash pattern)

/-- Rune-level `strings.Contains(s, "..")` (both dots are ASCII, so byte and
rune containment agree). -/
def hasDotDot : List Char → Bool
  | c1 :: c2 :: rest => (c1 = '.' && c2 = '.') || hasDotDot (c2 :: rest)
  | _ => false

/-- The body of `IsValidPattern`'s `for i, part := range parts` loop.
`n` is `len(parts)`, `i` the current index, `hashSeen` the mutable flag. -/
def validLoop (n : Nat) : Nat → Bool → List (List Char) → Bool
  | _, _, [] => true
  | i, hashSeen, part :: rest =>
    if part = [] then false
    else if part = ['#'] ∧ i ≠ n - 1 then false
    else if (hashSeen || part = ['#']) = true ∧ i ≠ n - 1 then false
    else if part.contains '+' ∧ part ≠ ['+'] then false
    else if part.contains '#' ∧ part ≠ ['#'] then false
    else validLoop n (i + 1) (hashSeen || part = ['#']) rest

/-- `IsValidPattern`: rejects the empty pattern and `..`, then runs the
per-segment loop over the `/`-split parts. -/
def IsValidPattern (pattern : List Char) : Bool :=
  if pattern = [] then false
  else if hasDotDot pattern then false
  else validLoop (splitSlash pattern).length 0 false (splitSlash pattern)

/-- Index-free restatement of `validLoop`'s per-segment checks: the `i ≠ n-1`
tests become "`#` must have an empty tail". -/
def checkSegs : List (List Char) → Bool
  | [] => true
  | part :: rest =>
    if part = [] then false
    else if part = ['#'] ∧ rest ≠ [] then false
    else if part.contains '+' ∧ part ≠ ['+'] then false
    else if part.contains '#' ∧ part ≠ ['#'] then false
    else checkSegs rest

/-! ## IRC formatter (internal/irc/formatter.go) -/

/-- Go's `unicode.IsSpace`: the Unicode White_Space property. -/
def goIsSpace (c : Char) : Bool :=
  (9 ≤ c.toNat && c.toNat ≤ 13) || c.toNat = 32 || c.toNat = 0x85 || c.toNat = 0xA0 ||
  c.toNat = 0x1680 || (0x2000 ≤ c.toNat && c.toNat ≤ 0x200A) ||
  c.toNat = 0x2028 || c.toNat = 0x2029 || c.toNat = 0x202F || c.toNat = 0x205F ||
  c.toNat = 0x3000

/-- The per-rune step of `sanitize`: keep printable ASCII, the IRC formatting
codes 0x02/0x1F/0x16/0x03 and every rune ≥ 128; replace other control
characters by a space. -/
def sanitizeRune (r : Char) : Char :=
  if (32 ≤ r.toNat ∧ r.toNat < 127) ∨ r = '\x02' ∨ r = '\x1F' ∨ r = '\x16' ∨ r = '\x03'
  then r
  else if 128 ≤ r.toNat then r
  else ' '

/-- `strings.Fields` at the rune level: maximal runs of non-whitespace.
The accumulator holds the current field reversed. -/
def fieldsAux : List Char → List Char → List (List Char)
  | [], cur => if cur = [] then [] else [cur.reverse]
  | c :: rest, cur =>
    if goIsSpace c then
      if cur = [] then fieldsAux rest [] else cur.reverse :: fieldsAux rest []
    else fieldsAux rest (c :: cur)

/-- `strings.Fields(s)`. -/
def fields (s : List Char) : List (List Char) := fieldsAux s []

/-- `sanitize`: map each rune through `sanitizeRune`, then
`strings.Join(strings.Fields(s), " ")`. -/
def sanitize (s : List Char) : List Char :=
  List.intercalate [' '] (fields (s.map sanitizeRune))

/-- `truncate`: limit the message to `maxLength` displayed characters
(`utf8.RuneCountInString` / `[]rune` slicing), reserving room for the
truncation suffix.  `maxLength` is a Go `int`. -/
def truncate (s : List Char) (maxLength : Int) (suffix : List Char) : List Char :=
  let m : Int := if maxLength ≤ 0 then 400 else maxLength
  if (s.length : Int) ≤ m then s
  else
    let targetLen : Int := m - suffix.length
    if targetLen ≤ 0 then suffix
    else s.take targetLen.toNat ++ suffix

/-- `SanitizeAndTruncate`: the exported composition used for pre-formatted
processor output. -/
def SanitizeAndTruncate (s : List Char) (maxLen : Int) (suffix : List Char) : List Char :=
  truncate (sanitize s) maxLen suffix

/-! ## Bridge message dispatch (internal/bridge/bridge.go) -/

/-- `types.Message`: an MQTT message as carried through the queue. -/
structure Message where
  topic : List Char
  payload : List Char
  timestamp : Nat
  qos : Nat

/-- `bridge.ProcessResult`: outcome of a processor run. -/
structure ProcessResult where
  drop : Bool
  formatted : List Char

/-- `bridge.MatchedMapping`: destinations and template of one matched route. -/
structure MatchedMapping where
  ircChannels : List String
  messageFormat : String

/-- What `handleMessage` does with one matched route: skip it, send
pre-formatted text to each channel directly, or run the template formatter. -/
inductive RouteAction where
  | dropped : RouteAction
  | direct (sends : List (String × List Char)) : RouteAction
  | formatter (template : String) : RouteAction
deriving DecidableEq

/-- The per-route branch of `Bridge.handleMessage`: when a processor is
configured, `Drop` short-circuits, then non-empty `Formatted` output is
sanitized, truncated and sent directly to every channel of the mapping;
otherwise (and when no processor is configured) the route falls through to
`FormatMessage` with the route's template. -/
def handleRoute (procResult : Option ProcessResult) (mapping : MatchedMapping)
    (maxLen : Int) (suffix : List Char) : RouteAction :=
  match procResult with
  | some result =>
    if result.drop then .dropped
    else if result.formatted ≠ [] then
      .direct (mapping.ircChannels.map
        (fun ch => (ch, SanitizeAndTruncate result.formatted maxLen suffix)))
    else .formatter mapping.messageFormat
  | none => .formatter mapping.messageFormat

/-! ## MQTT client enqueue (internal/mqtt/client.go) -/

/-- `config.QueueConfig`: bridge message queue settings. -/
structure QueueConfig where
  maxSize : Nat
  blockOnFull : Bool

/-- Outcome of the `messageHandler` send attempt. -/
inductive HandlerOutcome where
  | enqueued (queue : List Message) : HandlerOutcome
  | droppedNewest : HandlerOutcome

/-- `Client.messageHandler`'s send step: a non-blocking `select` on the
buffered channel — the message is appended when the buffer has room,
otherwise it is dropped with a warning.  The `select` has a `default` branch
unconditionally: no configuration field is consulted. -/
def messageHandler (cfg : QueueConfig) (queue : List Message) (m : Message) :
    HandlerOutcome :=
  if queue.length < cfg.maxSize then .enqueued (queue ++ [m])
  else .droppedNewest

/-! ## Meshtastic node registry (internal/bridge/processors/meshtastic.go) -/

/-- `nodeRecord`: identity information for a Meshtastic node. -/
structure NodeRecord where
  shortName : String
  longName : String
  updatedAt : Nat
deriving DecidableEq

/-- Go map read `m[k]` on an association list. -/
def getEntry {β : Type} (k : String) : List (String × β) → Option β
  | [] => none
  | e :: rest => if e.1 = k then some e.2 else getEntry k rest

/-- Go map write `m[k] = v` on an association list. -/
def setEntry {β : Type} (l : List (String × β)) (k : String) (v : β) :
    List (String × β) :=
  (k, v) :: l.filter (fun e => !(e.1 = k : Bool))

/-- `meshtasticProcessor.smartFrom`: best display name for a sender —
registry short name first, then the message's own `sender` field, then the
raw `from` value.  Missing map fields read as the empty string, as with Go's
`data["from"].(string)` defaulting. -/
def smartFrom (nodes : List (String × NodeRecord)) (fromId sender : String) :
    String :=
  match getEntry fromId nodes with
  | some r =>
    if r.shortName ≠ "" then r.shortName
    else if sender ≠ "" then sender
    else fromId
  | none =>
    if sender ≠ "" then sender
    else fromId

/-- `nodeRegistry.update`: store the record in memory under the lock, then
attempt `save`.  `save` only performs disk I/O (marshal, write temp file,
rename); its outcome is external to the registry state, so it is modelled by
the `saveResult` parameter, which `update` returns as its error. -/
def update (nodes : List (String × NodeRecord)) (fromId : String)
    (r : NodeRecord) (saveResult : Option String) :
    List (String × NodeRecord) × Option String :=
  (setEntry nodes fromId r, saveResult)

/-! ## Meshtastic dedup cache (internal/bridge/processors/meshtastic.go) -/

/-- `dedupCache`: message id → expiry instant, plus the dedup window. -/
structure DedupCache where
  entries : List (String × Nat)
  window : Nat

/-- `dedupCache.seen`: evict every entry whose expiry lies strictly in the
past (`now.After(expiry)`), report a hit when a live entry for `id` remains
(`now.Before(expiry)`), and otherwise record `id` with expiry
`now + window`.  The Go code computes the evicted map once; the filter
expression is repeated here only because the `let` is inlined. -/
def seen (c : DedupCache) (now : Nat) (id : String) : Bool × DedupCache :=
  match getEntry id (c.entries.filter (fun e => !(e.2 < now : Bool))) with
  | some expiry =>
    if now < expiry then
      (true, ⟨c.entries.filter (fun e => !(e.2 < now : Bool)), c.window⟩)
    else
      (false, ⟨setEntry (c.entries.filter (fun e => !(e.2 < now : Bool))) id
        (now + c.window), c.window⟩)
  | none =>
    (false, ⟨setEntry (c.entries.filter (fun e => !(e.2 < now : Bool))) id
      (now + c.window), c.window⟩)

/-! ## Claim theorems -/

/-! ## Claim theorems for the matcher -/

/-- **C1.** `Match` works segment-by-segment on the `/`-split parts: a `#`
pattern segment succeeds exactly when it is the last pattern segment,
independent of the remaining topic (including an empty remainder, so topic
`sensors` matches pattern `sensors/#`); a `+` segment fails when no topic
segment remains and otherwise consumes exactly one topic segment; any other
segment requires exact equality with the current topic segment before
recursing. -/
theorem C1_matchParts (t0 p : List Char) (ts topicParts ps : List (List Char)) :
    (matchParts topicParts (['#'] :: ps) = ps.isEmpty)
    ∧ (p ≠ ['#'] → matchParts [] (p :: ps) = false)
    ∧ (matchParts (t0 :: ts) (['+'] :: ps) = matchParts ts ps)
    ∧ (p ≠ ['#'] → p ≠ ['+'] →
        matchParts (t0 :: ts) (p :: ps) = (decide (t0 = p) && matchParts ts ps))
    ∧ matchTopic ['s','e','n','s','o','r','s']
        ['s','e','n','s','o','r','s','/','#'] = true := by
  refine ⟨?_, ?_, ?_, ?_, by decide⟩
  · cases topicParts <;> simp [matchParts]
  · intro hp
    simp [matchParts, hp]
  · simp [matchParts]
  · intro hp hplus
    by_cases ht : t0 = p <;> simp [matchParts, hp, hplus, ht]

/-- Closed witness for `C1_matchParts` at concrete segments. -/
theorem C1_matchParts_witness :
    matchParts [] [['x']] = false
    ∧ matchParts [['a']] [['x']] = (decide (('a' :: []) = ['x']) && matchParts [] []) := by
  refine ⟨?_, ?_⟩
  · exact (C1_matchParts [] ['x'] [] [] []).2.1 (by decide)
  · exact (C1_matchParts ['a'] ['x'] [] [] []).2.2.2.1 (by decide) (by decide)

/-- **C2, counterexample.** The claim says the truncation result never exceeds
`maxLength` characters for every positive `maxLength` and every suffix; but
with `s = "ab"`, `maxLength = 1`, `suffix = "..."` the code returns the bare
suffix `"..."`, which has 3 > 1 characters. -/
theorem C2_truncate_counterexample :
    truncate ['a', 'b'] 1 ['.', '.', '.'] = ['.', '.', '.']
    ∧ ¬ ((truncate ['a', 'b'] 1 ['.', '.', '.']).length ≤ 1) := by
  constructor
  · rfl
  · decide

/-- **C2, amended.** For every string `s`, positive `maxLength` and suffix:
a string of at most `maxLength` characters is returned unchanged; otherwise,
when the suffix is strictly shorter than `maxLength`, the result has at most
`maxLength` characters and ends with the suffix; when the suffix has
`maxLength` or more characters, the result is the suffix alone (and may
exceed `maxLength`). -/
theorem C2_truncate_bound (s suffix : List Char) (maxLength : Int)
    (hpos : 0 < maxLength) :
    ((s.length : Int) ≤ maxLength → truncate s maxLength suffix = s)
    ∧ (maxLength < (s.length : Int) → (suffix.length : Int) < maxLength →
        ((truncate s maxLength suffix).length : Int) ≤ maxLength
        ∧ suffix <:+ truncate s maxLength suffix)
    ∧ (maxLength < (s.length : Int) → maxLength ≤ (suffix.length : Int) →
        truncate s maxLength suffix = suffix) := by
  have hm : ¬ maxLength ≤ 0 := by omega
  refine ⟨?_, ?_, ?_⟩
  · intro hle
    simp only [truncate, if_neg hm]
    rw [if_pos hle]
  · intro hgt hsuf
    have htarget : ¬ (maxLength - (suffix.length : Int) ≤ 0) := by omega
    simp only [truncate, if_neg hm, if_neg (by omega : ¬ (s.length : Int) ≤ maxLength),
      if_neg htarget]
    constructor
    · rw [List.length_append, List.length_take]
      have : (maxLength - (suffix.length : Int)).toNat = maxLength.toNat - suffix.length := by
        omega
      rw [this]
      omega
    · exact List.suffix_append _ suffix
  · intro hgt hsuf
    simp only [truncate, if_neg hm, if_neg (by omega : ¬ (s.length : Int) ≤ maxLength)]
    rw [if_pos (by omega : maxLength - (suffix.length : Int) ≤ 0)]

/-- Closed witness for `C2_truncate_bound` at `s = "abc"`, `maxLength = 2`,
`suffix = "."`. -/
theorem C2_truncate_bound_witness :
    ((truncate ['a', 'b', 'c'] 2 ['.']).length : Int) ≤ 2
    ∧ ['.'] <:+ truncate ['a', 'b', 'c'] 2 ['.'] := by
  exact (C2_truncate_bound ['a', 'b', 'c'] ['.'] 2 (by decide)).2.1
    (by decide) (by decide)

/-- **C9.** A pattern without any `+` or `#` matches a topic exactly when the
two strings are equal. -/
theorem C9_no_wildcard_exact (topic pattern : List Char)
    (hplus : pattern.contains '+' = false) (hhash : pattern.contains '#' = false) :
    matchTopic topic pattern = decide (topic = pattern) := by
  unfold matchTopic
  by_cases h : topic = pattern
  · simp [h]
  · rw [if_neg h, hplus, hhash]
    simp [h]

/-- Closed witness for `C9_no_wildcard_exact` at concrete strings. -/
theorem C9_no_wildcard_exact_witness :
    matchTopic ['a'] ['b'] = decide ((['a'] : List Char) = ['b'])
    ∧ matchTopic ['a'] ['a'] = decide ((['a'] : List Char) = ['a']) := by
  exact ⟨C9_no_wildcard_exact ['a'] ['b'] (by decide) (by decide),
    C9_no_wildcard_exact ['a'] ['a'] (by decide) (by decide)⟩

/-- **C6.** For a route with a configured processor: a `Drop` result skips all
destinations even when `Formatted` is non-empty (`Drop` wins); a non-`Drop`
result with non-empty `Formatted` sends the sanitized-and-truncated text
directly to every destination, never invoking the formatter; otherwise the
formatter runs with the route's template. -/
theorem C6_handleRoute (result : ProcessResult) (mapping : MatchedMapping)
    (maxLen : Int) (suffix : List Char) :
    (result.drop = true →
      handleRoute (some result) mapping maxLen suffix = .dropped)
    ∧ (result.drop = false → result.formatted ≠ [] →
      handleRoute (some result) mapping maxLen suffix =
        .direct (mapping.ircChannels.map
          (fun ch => (ch, SanitizeAndTruncate result.formatted maxLen suffix))))
    ∧ (result.drop = false → result.formatted = [] →
      handleRoute (some result) mapping maxLen suffix =
        .formatter mapping.messageFormat) := by
  refine ⟨?_, ?_, ?_⟩
  · intro hd
    simp [handleRoute, hd]
  · intro hd hf
    simp [handleRoute, hd, hf]
  · intro hd hf
    simp [handleRoute, hd, hf]

/-- Closed witness for `C6_handleRoute`: a faulty processor result with both
`Drop` set and non-empty `Formatted` still drops the route. -/
theorem C6_handleRoute_witness :
    handleRoute (some ⟨true, ['h', 'i']⟩) ⟨["#chan"], "tpl"⟩ 400 [] =
      RouteAction.dropped := by
  exact (C6_handleRoute ⟨true, ['h', 'i']⟩ ⟨["#chan"], "tpl"⟩ 400 []).1 rfl

/-- **C3.** The spec requires the overflow policy to be selectable via
`block_on_full`, with the blocking policy making a producer on a full queue
wait.  The code never reads `BlockOnFull`: `messageHandler`'s outcome is
identical for both settings, and with `blockOnFull = true` a message arriving
at a full queue is still dropped (shown here on a queue of one message with
`max_size = 1`). -/
theorem C3_blockOnFull_ignored (cfg : QueueConfig) (queue : List Message)
    (m : Message) :
    messageHandler cfg queue m =
      messageHandler ⟨cfg.maxSize, !cfg.blockOnFull⟩ queue m
    ∧ messageHandler ⟨1, true⟩ [⟨[], [], 0, 0⟩] ⟨[], [], 0, 0⟩ =
        HandlerOutcome.droppedNewest := by
  constructor
  · simp [messageHandler]
  · simp [messageHandler]

/-- **C7.** Sender display-name resolution priority: a non-empty registry
short name wins; otherwise a non-empty `sender` token on the current message;
otherwise the raw `from` id. -/
theorem C7_smartFrom (nodes : List (String × NodeRecord)) (fromId sender : String) :
    (∀ r, getEntry fromId nodes = some r → r.shortName ≠ "" →
      smartFrom nodes fromId sender = r.shortName)
    ∧ ((getEntry fromId nodes = none
        ∨ ∃ r, getEntry fromId nodes = some r ∧ r.shortName = "") →
      sender ≠ "" → smartFrom nodes fromId sender = sender)
    ∧ ((getEntry fromId nodes = none
        ∨ ∃ r, getEntry fromId nodes = some r ∧ r.shortName = "") →
      sender = "" → smartFrom nodes fromId sender = fromId) := by
  refine ⟨?_, ?_, ?_⟩
  · intro r hr hs
    simp [smartFrom, hr, hs]
  · intro hno hs
    rcases hno with h | ⟨r, hr, hshort⟩
    · simp [smartFrom, h, hs]
    · simp [smartFrom, hr, hshort, hs]
  · intro hno hs
    rcases hno with h | ⟨r, hr, hshort⟩
    · simp [smartFrom, h, hs]
    · simp [smartFrom, hr, hshort, hs]

/-- Closed witness for `C7_smartFrom`: with a registry entry carrying short
name `"AB"`, the short name beats a non-empty sender token. -/
theorem C7_smartFrom_witness :
    smartFrom [("!1", ⟨"AB", "Alpha Bravo", 0⟩)] "!1" "!sender" = "AB"
    ∧ smartFrom [] "!2" "!sender" = "!sender"
    ∧ smartFrom [] "!2" "" = "!2" := by
  refine ⟨?_, ?_, ?_⟩
  · exact (C7_smartFrom [("!1", ⟨"AB", "Alpha Bravo", 0⟩)] "!1" "!sender").1
      ⟨"AB", "Alpha Bravo", 0⟩ rfl (by decide)
  · exact (C7_smartFrom [] "!2" "!sender").2.1 (Or.inl rfl) (by decide)
  · exact (C7_smartFrom [] "!2" "").2.2 (Or.inl rfl) rfl

/-- Reading a key other than the erased one is unaffected by erasure. -/
theorem getEntry_filter_ne {β : Type} (k q : String) (hk : k ≠ q)
    (l : List (String × β)) :
    getEntry k (l.filter (fun e => !(e.1 = q : Bool))) = getEntry k l := by
  induction l with
  | nil => rfl
  | cons e rest ih =>
    by_cases he : e.1 = q
    · have hek : ¬ e.1 = k := fun h => hk (h.symm.trans he)
      have hqk : ¬ q = k := fun h => hk h.symm
      simp [getEntry, List.filter, he, hek, hqk, ih]
    · by_cases hke : e.1 = k
      · simp [getEntry, List.filter, he, hke, hk]
      · simp [getEntry, List.filter, he, hke, ih]

/-- **C8.** `update` stores the record in memory before persistence and the
in-memory state is unaffected by the persistence outcome: the stored record
is immediately readable, the in-memory registry is the same whether the disk
write succeeded or failed, the save error is reported to the caller
unchanged, and records of other senders are untouched. -/
theorem C8_update_memory_first (nodes : List (String × NodeRecord))
    (fromId : String) (r : NodeRecord) (saveResult : Option String) :
    getEntry fromId (update nodes fromId r saveResult).1 = some r
    ∧ (update nodes fromId r saveResult).1 = (update nodes fromId r none).1
    ∧ (update nodes fromId r saveResult).2 = saveResult
    ∧ ∀ k, k ≠ fromId →
        getEntry k (update nodes fromId r saveResult).1 = getEntry k nodes := by
  refine ⟨by simp [update, setEntry, getEntry], rfl, rfl, ?_⟩
  intro k hk
  show getEntry k ((fromId, r) :: _) = _
  rw [getEntry, if_neg (fun h => hk h.symm)]
  exact getEntry_filter_ne k fromId hk nodes

/-- Closed witness for `C8_update_memory_first`: after an update whose disk
write failed, the old record of another sender is still readable. -/
theorem C8_update_memory_first_witness :
    getEntry "!9" (update [("!9", ⟨"Z", "Zulu", 0⟩)] "!1" ⟨"A", "Alpha", 1⟩
      (some "disk full")).1 = some ⟨"Z", "Zulu", 0⟩ := by
  have h := (C8_update_memory_first [("!9", ⟨"Z", "Zulu", 0⟩)] "!1"
    ⟨"A", "Alpha", 1⟩ (some "disk full")).2.2.2 "!9" (by decide)
  rw [h]
  rfl

/-- A key that is absent stays absent after any filtering. -/
theorem getEntry_filter_none {β : Type} (k : String) (p : String × β → Bool)
    (l : List (String × β)) (h : getEntry k l = none) :
    getEntry k (l.filter p) = none := by
  induction l with
  | nil => rfl
  | cons e rest ih =>
    rw [getEntry] at h
    by_cases hek : e.1 = k
    · rw [if_pos hek] at h
      cases h
    · rw [if_neg hek] at h
      by_cases hp : p e = true
      · simp [List.filter, hp, getEntry, hek, ih h]
      · simp [List.filter, hp, ih h]

/-- Erasing a key makes it unreadable. -/
theorem getEntry_erase_self {β : Type} (k : String) (l : List (String × β)) :
    getEntry k (l.filter (fun e => !(e.1 = k : Bool))) = none := by
  induction l with
  | nil => rfl
  | cons e rest ih =>
    by_cases hek : e.1 = k
    · simp [List.filter, hek, ih]
    · simp [List.filter, hek, getEntry, ih]

/-- A key outside the key list cannot be read. -/
theorem getEntry_of_not_mem_keys {β : Type} (k : String)
    (l : List (String × β)) (h : ¬ k ∈ l.map Prod.fst) :
    getEntry k l = none := by
  induction l with
  | nil => rfl
  | cons e rest ih =>
    rw [List.map_cons, List.mem_cons] at h
    push_neg at h
    rw [getEntry, if_neg (fun he => h.1 he.symm)]
    exact ih h.2

/-- With unique keys, filtering on the value turns a map read into a read of
the original map followed by the value test. -/
theorem getEntry_filter_val {β : Type} (k : String) (q : β → Bool)
    (l : List (String × β)) (h : (l.map Prod.fst).Nodup) :
    getEntry k (l.filter (fun e => q e.2)) =
      (getEntry k l).bind (fun v => if q v then some v else none) := by
  induction l with
  | nil => rfl
  | cons e rest ih =>
    rw [List.map_cons, List.nodup_cons] at h
    by_cases hek : e.1 = k
    · have hrest : getEntry k rest = none := by
        refine getEntry_of_not_mem_keys k rest (fun hm => h.1 ?_)
        rw [hek]
        exact hm
      cases hqE : q e.2 with
      | false =>
        simp [List.filter, hqE, getEntry, hek,
          getEntry_filter_none k (fun e => q e.2) rest hrest]
      | true =>
        simp [List.filter, hqE, getEntry, hek]
    · cases hqE : q e.2 with
      | false => simp [List.filter, hqE, getEntry, hek, ih h.2]
      | true => simp [List.filter, hqE, getEntry, hek, ih h.2]

/-- After `id` is recorded with expiry `t0 + w`, a later `seen` at `t1`
reports a duplicate exactly while `t1 < t0 + w`. -/
theorem seen_second (l : List (String × Nat)) (w : Nat) (id : String)
    (t0 t1 : Nat) :
    (seen ⟨setEntry l id (t0 + w), w⟩ t1 id).1 = decide (t1 < t0 + w) := by
  rw [seen]
  by_cases hw : t0 + w < t1
  · have hdrop : (!(t0 + w < t1 : Bool)) = false := by simp [hw]
    simp only [setEntry, List.filter, hdrop]
    rw [getEntry_filter_none id _ _ (getEntry_erase_self id l)]
    simp only []
    have : ¬ t1 < t0 + w := by omega
    simp [this]
  · have hkeep : (!(t0 + w < t1 : Bool)) = true := by simp [hw]
    simp only [setEntry, List.filter, hkeep]
    rw [show getEntry id ((id, t0 + w) ::
        List.filter (fun e => !(e.2 < t1 : Bool))
          (List.filter (fun e => !(e.1 = id : Bool)) l)) = some (t0 + w) by
      simp [getEntry]]
    by_cases hlt : t1 < t0 + w
    · simp [hlt]
    · simp [hlt]

/-- **C4.** Dedup behaviour: a first call for an unknown id returns `false`
and records expiry `now + window`; a second call strictly within the window
returns `true`; a call at or after the window boundary returns `false`
again; and (for a cache with unique keys, as a Go map guarantees) `seen`
reports a hit iff the stored expiry has not yet elapsed — so the lazy
eviction of strictly-expired entries never changes the predicate's value. -/
theorem C4_dedup_seen (c : DedupCache) (t0 t1 now : Nat) (id : String) :
    (getEntry id c.entries = none →
      (seen c now id).1 = false
      ∧ getEntry id (seen c now id).2.entries = some (now + c.window))
    ∧ ((seen c t0 id).1 = false → t1 < t0 + c.window →
      (seen (seen c t0 id).2 t1 id).1 = true)
    ∧ ((seen c t0 id).1 = false → t0 + c.window ≤ t1 →
      (seen (seen c t0 id).2 t1 id).1 = false)
    ∧ ((c.entries.map Prod.fst).Nodup →
      ((seen c now id).1 = true ↔
        ∃ expiry, getEntry id c.entries = some expiry ∧ now < expiry)) := by
  have hfalse : (seen c t0 id).1 = false →
      (seen c t0 id).2 = ⟨setEntry (c.entries.filter (fun e => !(e.2 < t0 : Bool)))
        id (t0 + c.window), c.window⟩ := by
    intro h1
    rw [seen] at h1 ⊢
    cases hes : getEntry id (c.entries.filter (fun e => !(e.2 < t0 : Bool))) with
    | none => rfl
    | some expiry =>
      rw [hes] at h1
      by_cases hlt : t0 < expiry
      · simp [hlt] at h1
      · simp [hlt]
  refine ⟨?_, ?_, ?_, ?_⟩
  · intro hnone
    have hes : getEntry id (c.entries.filter (fun e => !(e.2 < now : Bool))) = none :=
      getEntry_filter_none id _ _ hnone
    rw [seen, hes]
    exact ⟨rfl, by simp [setEntry, getEntry]⟩
  · intro h1 h2
    rw [hfalse h1, seen_second]
    simp [h2]
  · intro h1 h2
    rw [hfalse h1, seen_second]
    simp
    omega
  · intro hnodup
    have hval : getEntry id (c.entries.filter (fun e => !(e.2 < now : Bool))) =
        (getEntry id c.entries).bind
          (fun v => if !(v < now : Bool) then some v else none) :=
      getEntry_filter_val id (fun v => !(v < now : Bool)) c.entries hnodup
    rw [seen, hval]
    cases horig : getEntry id c.entries with
    | none => simp
    | some expiry =>
      rw [Option.some_bind]
      by_cases hq : expiry < now
      · have hdead : (!(expiry < now : Bool)) = false := by simp [hq]
        rw [hdead]
        have : ¬ now < expiry := by omega
        simp [this]
      · have hlive : (!(expiry < now : Bool)) = true := by simp [hq]
        rw [hlive]
        by_cases hlt : now < expiry
        · simp [hlt]
        · simp [hlt]

/-- Closed witness for `C4_dedup_seen`: starting from an empty cache with a
5-tick window, the first call at `t = 10` misses and records expiry 15, a
call at `t = 12` hits, and a call at `t = 15` misses again. -/
theorem C4_dedup_seen_witness :
    ((seen ⟨[], 5⟩ 10 "m").1 = false
      ∧ getEntry "m" (seen ⟨[], 5⟩ 10 "m").2.entries = some 15)
    ∧ (seen (seen ⟨[], 5⟩ 10 "m").2 12 "m").1 = true
    ∧ (seen (seen ⟨[], 5⟩ 10 "m").2 15 "m").1 = false := by
  refine ⟨(C4_dedup_seen ⟨[], 5⟩ 10 12 10 "m").1 rfl, ?_, ?_⟩
  · exact (C4_dedup_seen ⟨[], 5⟩ 10 12 10 "m").2.1 (by decide) (by decide)
  · exact (C4_dedup_seen ⟨[], 5⟩ 10 15 10 "m").2.2.1 (by decide) (by decide)

/-- **C10.** A hit never refreshes the entry: when `seen` returns `true` the
cache's record for the id (its stored expiry) is exactly what it was before
the call, and the window is unchanged — so duplicates never extend the
deduplication window. -/
theorem C10_seen_hit_frame (c : DedupCache) (now : Nat) (id : String)
    (hnodup : (c.entries.map Prod.fst).Nodup)
    (hhit : (seen c now id).1 = true) :
    getEntry id (seen c now id).2.entries = getEntry id c.entries
    ∧ (seen c now id).2.window = c.window := by
  have hval : getEntry id (c.entries.filter (fun e => !(e.2 < now : Bool))) =
      (getEntry id c.entries).bind
        (fun v => if !(v < now : Bool) then some v else none) :=
    getEntry_filter_val id (fun v => !(v < now : Bool)) c.entries hnodup
  rw [seen] at hhit ⊢
  cases hes : getEntry id (c.entries.filter (fun e => !(e.2 < now : Bool))) with
  | none =>
    rw [hes] at hhit
    simp at hhit
  | some expiry =>
    rw [hes] at hhit
    by_cases hlt : now < expiry
    · simp only [hlt, if_true]
      refine ⟨?_, trivial⟩
      rw [hes]
      rw [hval] at hes
      cases horig : getEntry id c.entries with
      | none =>
        rw [horig] at hes
        cases hes
      | some v =>
        rw [horig, Option.some_bind] at hes
        by_cases hq : (!(v < now : Bool)) = true
        · rw [if_pos hq] at hes
          exact hes.symm
        · rw [if_neg hq] at hes
          cases hes
    · simp [hlt] at hhit

/-- Closed witness for `C10_seen_hit_frame`: a duplicate at `t = 12` leaves
the stored expiry 15 in place. -/
theorem C10_seen_hit_frame_witness :
    getEntry "m" (seen ⟨[("m", 15)], 5⟩ 12 "m").2.entries =
      getEntry "m" [("m", 15)]
    ∧ (seen ⟨[("m", 15)], 5⟩ 12 "m").2.window = 5 := by
  exact C10_seen_hit_frame ⟨[("m", 15)], 5⟩ 12 "m" (by decide) (by decide)

/-! ## Pattern validation (C5) -/

/-- `hasDotDot` detects exactly a `'.','.'` infix. -/
theorem hasDotDot_iff (l : List Char) :
    hasDotDot l = true ↔ ∃ s t, l = s ++ '.' :: '.' :: t := by
  induction l with
  | nil =>
    apply iff_of_false
    · simp [hasDotDot]
    · rintro ⟨s, t, h⟩
      have := congrArg List.length h
      simp at this
      omega
  | cons c rest ih =>
    cases rest with
    | nil =>
      apply iff_of_false
      · simp [hasDotDot]
      · rintro ⟨s, t, h⟩
        have := congrArg List.length h
        simp at this
        omega
    | cons c2 rest2 =>
      rw [hasDotDot]
      constructor
      · intro h
        rcases (by simpa using h :
            (c = '.' ∧ c2 = '.') ∨ hasDotDot (c2 :: rest2) = true) with ⟨h1, h2⟩ | h2
        · exact ⟨[], rest2, by simp [h1, h2]⟩
        · obtain ⟨s, t, ht⟩ := ih.mp h2
          exact ⟨c :: s, t, by simp [ht]⟩
      · rintro ⟨s, t, ht⟩
        cases s with
        | nil =>
          simp at ht
          simp [ht.1, ht.2.1]
        | cons a s2 =>
          rw [List.cons_append] at ht
          injection ht with h1 h2
          have hdd : hasDotDot (c2 :: rest2) = true := ih.mpr ⟨s2, t, h2⟩
          simp [hdd]

/-- The index bookkeeping of `validLoop` collapses: started at index `i` with
`hashSeen = false` on the remaining `rest` of an `n`-element list, the loop
computes exactly the index-free `checkSegs`. -/
theorem validLoop_eq_checkSegs (rest : List (List Char)) :
    ∀ n i : Nat, i + rest.length = n → validLoop n i false rest = checkSegs rest := by
  induction rest with
  | nil =>
    intro n i h
    rfl
  | cons part rest ih =>
    intro n i h
    rw [List.length_cons] at h
    by_cases hempty : part = []
    · simp [validLoop, checkSegs, hempty]
    · by_cases hp : part = ['#']
      · by_cases hr : rest = []
        · have hi : i = n - 1 := by
            subst hr
            simp at h
            omega
          have hi2 : ¬ i ≠ n - 1 := by simp [hi]
          subst hr
          simp [validLoop, checkSegs, hempty, hp, hi2, List.contains]
        · have hrl : rest.length ≠ 0 := by
            intro h0
            exact hr (List.length_eq_zero.mp h0)
          have hi : i ≠ n - 1 := by omega
          simp [validLoop, checkSegs, hempty, hp, hi, hr]
      · have hrec := ih n (i + 1) (by omega)
        simp [validLoop, checkSegs, hempty, hp, hrec]

/-- The per-segment checks in declarative form. -/
theorem checkSegs_iff (l : List (List Char)) :
    checkSegs l = true ↔
      ((∀ s ∈ l, s ≠ [])
        ∧ (∀ s ∈ l.dropLast, s ≠ ['#'])
        ∧ l.count ['#'] ≤ 1
        ∧ (∀ s ∈ l, (s.contains '+' = true → s = ['+'])
            ∧ (s.contains '#' = true → s = ['#']))) := by
  induction l with
  | nil => simp [checkSegs]
  | cons part rest ih =>
    by_cases hempty : part = []
    · apply iff_of_false
      · rw [checkSegs, if_pos hempty]
        simp
      · rintro ⟨h1, -, -, -⟩
        exact h1 part (List.mem_cons_self part rest) hempty
    · by_cases hp : part = ['#']
      · by_cases hr : rest = []
        · subst hp hr
          decide
        · apply iff_of_false
          · rw [checkSegs, if_neg hempty, if_pos ⟨hp, hr⟩]
            simp
          · rintro ⟨-, h2, -, -⟩
            have hmem : part ∈ (part :: rest).dropLast := by
              cases rest with
              | nil => exact absurd rfl hr
              | cons a as => exact List.mem_cons_self part _
            exact h2 part hmem hp
      · have hp2 : ¬ (part = ['#'] ∧ rest ≠ []) := fun hc => hp hc.1
        by_cases hplus : part.contains '+' = true ∧ part ≠ ['+']
        · apply iff_of_false
          · rw [checkSegs, if_neg hempty, if_neg hp2, if_pos hplus]
            simp
          · rintro ⟨-, -, -, h4⟩
            exact hplus.2 ((h4 part (List.mem_cons_self part rest)).1 hplus.1)
        · by_cases hhash : part.contains '#' = true ∧ part ≠ ['#']
          · apply iff_of_false
            · rw [checkSegs, if_neg hempty, if_neg hp2, if_neg hplus, if_pos hhash]
              simp
            · rintro ⟨-, -, -, h4⟩
              exact hhash.2 ((h4 part (List.mem_cons_self part rest)).2 hhash.1)
          · have hstep : checkSegs (part :: rest) = checkSegs rest := by
              rw [checkSegs, if_neg hempty, if_neg hp2, if_neg hplus, if_neg hhash]
            have hmixpart : (part.contains '+' = true → part = ['+'])
                ∧ (part.contains '#' = true → part = ['#']) :=
              ⟨fun hc => by_contra fun hne => hplus ⟨hc, hne⟩,
                fun hc => by_contra fun hne => hhash ⟨hc, hne⟩⟩
            have hp' : ¬ (['#'] : List Char) = part := fun h => hp h.symm
            rw [hstep, ih]
            cases hrE : rest with
            | nil =>
              subst hrE
              constructor
              · rintro -
                refine ⟨?_, by simp, ?_, ?_⟩
                · intro s hs
                  rw [List.mem_singleton] at hs
                  subst hs
                  exact hempty
                · by_cases hc : part = ['#'] <;> simp [List.count_cons, hc]
                · intro s hs
                  rw [List.mem_singleton] at hs
                  subst hs
                  exact hmixpart
              · rintro -
                exact ⟨by simp, by simp, by simp, by simp⟩
            | cons a as =>
              rw [← hrE]
              have hdrop : (part :: rest).dropLast = part :: rest.dropLast := by
                rw [hrE]
                rfl
              rw [hdrop]
              simp only [List.forall_mem_cons, List.count_cons]
              constructor
              · rintro ⟨h1, h2, h3, h4⟩
                refine ⟨⟨hempty, h1⟩, ⟨hp, h2⟩, ?_, hmixpart, h4⟩
                simp [hp', hp]
                omega
              · rintro ⟨⟨-, h1⟩, ⟨-, h2⟩, h3, -, h4⟩
                refine ⟨h1, h2, ?_, h4⟩
                simp [hp', hp] at h3
                omega

/-- **C5.** `IsValidPattern` accepts a pattern iff: it is non-empty, contains
no `..` anywhere, has no empty segment, has `#` only as the final segment,
has at most one `#` segment, and mixes neither `+` nor `#` with other
characters inside a segment. -/
theorem C5_IsValidPattern (pattern : List Char) :
    IsValidPattern pattern = true ↔
      (pattern ≠ []
        ∧ ¬ (∃ s t, pattern = s ++ '.' :: '.' :: t)
        ∧ (∀ seg ∈ splitSlash pattern, seg ≠ [])
        ∧ (∀ seg ∈ (splitSlash pattern).dropLast, seg ≠ ['#'])
        ∧ (splitSlash pattern).count ['#'] ≤ 1
        ∧ (∀ seg ∈ splitSlash pattern, (seg.contains '+' = true → seg = ['+'])
            ∧ (seg.contains '#' = true → seg = ['#']))) := by
  rw [IsValidPattern]
  by_cases hemp : pattern = []
  · apply iff_of_false
    · simp [hemp]
    · rintro ⟨h1, -⟩
      exact h1 hemp
  · rw [if_neg hemp]
    by_cases hdd : hasDotDot pattern = true
    · apply iff_of_false
      · simp [hdd]
      · rintro ⟨-, h2, -⟩
        exact h2 ((hasDotDot_iff pattern).mp hdd)
    · rw [if_neg hdd,
        validLoop_eq_checkSegs (splitSlash pattern) (splitSlash pattern).length 0
          (by simp),
        checkSegs_iff]
      constructor
      · rintro ⟨h3, h4, h5, h6⟩
        exact ⟨hemp, fun hex => hdd ((hasDotDot_iff pattern).mpr hex), h3, h4, h5, h6⟩
      · rintro ⟨-, -, h3, h4, h5, h6⟩
        exact ⟨h3, h4, h5, h6⟩

/-- Closed witness for `C5_IsValidPattern`: the single-segment pattern `#` is
valid, derived through the characterization. -/
theorem C5_IsValidPattern_witness : IsValidPattern ['#'] = true := by
  refine (C5_IsValidPattern ['#']).mpr
    ⟨by decide, ?_, by decide, by decide, by decide, by decide⟩
  rintro ⟨s, t, h⟩
  have := congrArg List.length h
  simp at this
  omega

end Mqtt2Irc
